import Mathlib

/-!
# Verification of `claude-mcp-init`

A shallow embedding, in Lean, of the parts of the `claude-mcp-init` Python
code base that the specification's testable properties talk about:

* `ConfigManager._deep_merge` / `ConfigManager.merge_json_file`
  (`src/lib/claude_mcp_init/config_manager.py`),
* `ConfigManager.update_gitignore`,
* `ConfigManager.write_mcp_json` (the `{project_path}` placeholder
  replacement),
* `PluginManager.validate_all_requirements`
  (`src/lib/claude_mcp_init/plugin_manager.py`),
* `validate_project_name` and `normalize_language`
  (`src/lib/claude_mcp_init/utils.py`),
* the `init` command flow of `src/lib/claude_mcp_init/main.py`
  (`cli`, `_validate_plugin_requirements`, `_generate_mcp_json`,
  `_generate_env_file`), which is the command exercised by the
  integration tests (`test/python/integration/test_cli_integration.py`).

Python strings are modelled as `List Char` (sequences of code points),
Python dicts as association lists in insertion order (a Python dict has
unique keys; where a proof needs that fact it is an explicit hypothesis
or is established for the dicts the code actually builds), and JSON
documents as an inductive tree.  Fallible code (uncaught `TypeError`)
is modelled with `Option`.

The file is organised as definitions first, theorems second.
-/

set_option autoImplicit false
set_option linter.unusedSectionVars false

namespace ClaudeMcpInit

/-- Python strings, modelled as their sequence of code points. -/
abbrev Chars := List Char

/-! ## Association lists: the model of Python `dict`

`alookup` is `d.get(k)` / `d[k]`, `aset` is `d[k] = v` (Python keeps the
position of an existing key and appends a fresh key at the end). -/

section AssocDefs

variable {α : Type} {β : Type} [DecidableEq α]

/-- `d.get(k)`: first binding of `k`, if any. -/
def alookup : List (α × β) → α → Option β
  | [], _ => none
  | (k', v) :: rest, k => if k' = k then some v else alookup rest k

/-- `d[k] = v`: replace the binding in place, or append a new one. -/
def aset : List (α × β) → α → β → List (α × β)
  | [], k, v => [(k, v)]
  | (k', v') :: rest, k, v =>
    if k' = k then (k, v) :: rest else (k', v') :: aset rest k v

/-- The keys of an association list, in order. -/
def akeys (l : List (α × β)) : List α := l.map Prod.fst

end AssocDefs

/-! ## JSON documents

The result of Python's `json.load`.  Object fields are an association
list in insertion order, matching Python dicts. -/

inductive JValue where
  | str (s : String)
  | num (n : Int)
  | bool (b : Bool)
  | null
  | arr (elems : List JValue)
  | obj (fields : List (String × JValue))

abbrev JFields := List (String × JValue)

/-! ## `ConfigManager._deep_merge` (config_manager.py, lines 213-232)

```python
result = base.copy()
for key, value in update.items():
    if key in result and isinstance(result[key], dict) and isinstance(value, dict):
        result[key] = self._deep_merge(result[key], value)
    else:
        result[key] = value
return result
```
`mergeOne` is one iteration of the loop body, `mergeInto` the loop. -/

mutual

/-- The loop of `_deep_merge`: fold the entries of `update` into `result`. -/
def mergeInto (result : JFields) : JFields → JFields
  | [] => result
  | (k, v) :: rest => mergeInto (mergeOne result k v) rest

/-- One iteration of the `_deep_merge` loop body for the entry `(k, v)`. -/
def mergeOne (result : JFields) (k : String) (v : JValue) : JFields :=
  match alookup result k, v with
  | some (.obj bo), .obj uo => aset result k (.obj (mergeInto bo uo))
  | _, _ => aset result k v

end

/-- `ConfigManager._deep_merge(base, update)`. -/
def deep_merge (base update : JFields) : JFields := mergeInto base update

/-- `ConfigManager.merge_json_file` (config_manager.py, lines 192-211),
restricted to JSON files whose top level is an object (`json.load`
results that are not dicts make the subsequent `update.items()` loop
raise).  The input `existing` is the parsed current file content
(`none` when the file does not exist); the result is the content
written back. -/
def merge_json_file (existing : Option JFields) (new_data : JFields) : JFields :=
  match existing with
  | some e => deep_merge e new_data
  | none => new_data

/-- The value `_deep_merge` ends up storing under one key: the update value,
except that two objects merge recursively. -/
def mergeResult (old : Option JValue) (v : JValue) : JValue :=
  match old, v with
  | some (.obj bo), .obj uo => .obj (mergeInto bo uo)
  | _, _ => v

/-! ## `utils.py` -/

/-- `utils.format_error` without the optional details argument (the only
form the `init` flow uses). -/
def format_error (message : String) : String := "❌ Error: " ++ message

/-- The character class `[a-zA-Z0-9]` of `utils.validate_project_name`. -/
def isAsciiAlnum (c : Char) : Bool :=
  (decide ('a' ≤ c) && decide (c ≤ 'z')) ||
  (decide ('A' ≤ c) && decide (c ≤ 'Z')) ||
  (decide ('0' ≤ c) && decide (c ≤ '9'))

/-- The character class `[a-zA-Z0-9._-]` of `utils.validate_project_name`. -/
def isNameTailChar (c : Char) : Bool :=
  isAsciiAlnum c || c == '.' || c == '_' || c == '-'

/-- Whether `[a-zA-Z0-9][a-zA-Z0-9._-]{0,99}` matches the whole of `s`. -/
def matchesCore (s : Chars) : Bool :=
  match s with
  | [] => false
  | c :: rest => isAsciiAlnum c && decide (rest.length ≤ 99) && rest.all isNameTailChar

/-- `utils.validate_project_name` (utils.py, lines 12-26):
`bool(re.match(r"^[a-zA-Z0-9][a-zA-Z0-9._-]{0,99}$", name))`.
In Python, `$` (without `re.MULTILINE`) matches at the end of the string
*or just before a single newline at the end of the string*, so `re.match`
also accepts a matching name followed by one trailing `'\n'`. -/
def validate_project_name (s : Chars) : Bool :=
  matchesCore s || (s.getLast? == some '\n' && matchesCore s.dropLast)

/-- The project-name pattern as the specification's claim reads it
(a property of the whole string): non-empty, first character
alphanumeric, every later character in `[a-zA-Z0-9._-]`, length at
most 100.  Stated from the claim's words, for comparison with
`validate_project_name`. -/
def claimNamePattern (s : Chars) : Bool :=
  match s with
  | [] => false
  | c :: rest =>
    isAsciiAlnum c && rest.all isNameTailChar && decide ((c :: rest).length ≤ 100)

/-- Python `str.lower()` restricted to ASCII input (every language name
this code compares against is ASCII; `Char.toLower` is exactly the
`A`-`Z` code point shift that Python performs on those). -/
def pyLower (s : Chars) : Chars := s.map Char.toLower

/-- `utils.normalize_language` (utils.py, lines 207-227): lower-case the
input, then map the legacy languages `php`, `elixir`, `clojure`, `c`
to `typescript`. -/
def normalize_language (language : Chars) : Chars :=
  let l := pyLower language
  if l = "php".toList ∨ l = "elixir".toList ∨ l = "clojure".toList ∨ l = "c".toList then
    "typescript".toList
  else l

/-! ## `ConfigManager.update_gitignore` (config_manager.py, lines 234-254)

```python
if gitignore_file.exists():
    existing = set(gitignore_file.read_text().strip().split("\n"))
else:
    existing = set()
for pattern in patterns:
    existing.add(pattern)
gitignore_file.write_text("\n".join(sorted(existing)) + "\n")
```
-/

/-- The whitespace characters Python `str.strip()` removes (ASCII range). -/
def isPySpace (c : Char) : Bool :=
  c == ' ' || c == '\t' || c == '\n' || c == '\r' || c == '\x0b' || c == '\x0c'

/-- Python `str.strip()`: drop leading and trailing whitespace. -/
def pyStrip (s : Chars) : Chars :=
  ((s.dropWhile isPySpace).reverse.dropWhile isPySpace).reverse

/-- Python `sorted(<set>)`: the duplicate-free ascending enumeration of
the elements (code point lexicographic order on strings). -/
def sortedDedup (ls : List Chars) : List Chars :=
  List.insertionSort (· ≤ ·) ls.dedup

/-- The pre-existing lines `update_gitignore` starts from:
`gitignore_file.read_text().strip().split("\n")` when the file exists,
nothing otherwise.  Python's `"x\n y".split("\n")` splits on every
newline and `"".split("\n")` is `[""]`, exactly `List.splitOn '\n'`. -/
def priorLines (existingContent : Option Chars) : List Chars :=
  match existingContent with
  | some content => List.splitOn '\n' (pyStrip content)
  | none => []

/-- `ConfigManager.update_gitignore`.  `existingContent` is the current
`.gitignore` content (`none` when the file does not exist); the result
is the content written back. -/
def update_gitignore (existingContent : Option Chars) (patterns : List Chars) : Chars :=
  List.intercalate ['\n'] (sortedDedup (priorLines existingContent ++ patterns)) ++ ['\n']

/-- A line that survives the `update_gitignore` round trip (written with
`"\n".join(...) + "\n"`, read back with `.strip().split("\n")`):
non-empty, contains no newline, and carries no strippable whitespace at
its start or at its end.  All seven patterns the orchestrator passes are
of this shape. -/
def goodLine (l : Chars) : Prop :=
  l ≠ [] ∧ '\n' ∉ l ∧
    l.dropWhile isPySpace = l ∧ l.reverse.dropWhile isPySpace = l.reverse

instance (l : Chars) : Decidable (goodLine l) :=
  inferInstanceAs (Decidable (_ ∧ _ ∧ _ ∧ _))

/-! ## `ConfigManager.write_mcp_json` (config_manager.py, lines 98-116)

```python
for server_config in self.mcp_config["mcpServers"].values():
    if "args" in server_config:
        args = []
        for arg in server_config["args"]:
            if "{project_path}" in arg:
                arg = arg.replace("{project_path}", str(self.project_path.absolute()))
            args.append(arg)
        server_config["args"] = args
```
-/

/-- The placeholder token `{project_path}`. -/
def projectPathToken : Chars := "{project_path}".toList

/-- The token without its opening brace. -/
def projectPathTokenTail : Chars := projectPathToken.drop 1

/-- Python `arg.replace("{project_path}", repl)`: scan left to right; where
the token starts, emit `repl` and skip the token (its head is consumed by
the pattern match, its remaining `length - 1` characters by the skip
counter, so that the recursion is structural and concrete runs compute);
elsewhere copy one character.  `replaceToken_cons` below states the
resulting one-step equation in the familiar form. -/
def replaceAux (repl : Chars) : Nat → Chars → Chars
  | 0, [] => []
  | 0, c :: rest =>
    if projectPathToken.isPrefixOf (c :: rest) then
      repl ++ replaceAux repl (projectPathToken.length - 1) rest
    else
      c :: replaceAux repl 0 rest
  | _ + 1, [] => []
  | n + 1, _ :: rest => replaceAux repl n rest

/-- `arg.replace("{project_path}", repl)`. -/
def replaceToken (repl : Chars) (s : Chars) : Chars := replaceAux repl 0 s

/-- The argument rewriting loop of `write_mcp_json` applied to one
server's `args` list; `project_path_abs` is
`str(self.project_path.absolute())`. -/
def write_mcp_json_args (project_path_abs : Chars) (args : List Chars) : List Chars :=
  args.map fun arg =>
    if projectPathToken <:+: arg then replaceToken project_path_abs arg else arg

/-! ## The plugin registry and the `init` run (`main.py`)

A `Plugin` records the observable behaviour of one loaded `MCPModule`
instance for the fixed configuration of a single run: the result of
`validate_requirements()`, whether `generate_config_files` succeeds,
and the values of `get_env_variables(config)` and
`get_mcp_json_section(project_path, config)`. -/

structure Plugin where
  reqOk : Bool
  reqErr : Option String
  genOk : Bool
  envVars : List (Chars × Chars)
  mcpSection : JValue

/-- `PluginManager.plugins`: module name to module instance. -/
abbrev Registry := List (String × Plugin)

/-- How a Python f-string renders an `Optional[str]`. -/
def renderPyOpt : Option String → String
  | some s => s
  | none => "None"

/-- `PluginManager.validate_all_requirements` (plugin_manager.py,
lines 129-151): collect one error per failing or unknown module, and
return `(no errors, error list)`. -/
def validate_all_requirements (reg : Registry) (module_names : List String) :
    Bool × List String :=
  let errors := module_names.foldl
    (fun errs name =>
      match alookup reg name with
      | some plugin =>
        if plugin.reqOk then errs
        else errs ++ [name ++ ": " ++ renderPyOpt plugin.reqErr]
      | none => errs ++ ["Plugin " ++ name ++ " not found"])
    []
  (errors.length == 0, errors)

/-- The error entry `validate_all_requirements` produces for one requested
name (`none` when the module exists and its requirements hold). -/
def requirementErrorEntry (reg : Registry) (name : String) : Option String :=
  match alookup reg name with
  | some plugin =>
    if plugin.reqOk then none
    else some (name ++ ": " ++ renderPyOpt plugin.reqErr)
  | none => some ("Plugin " ++ name ++ " not found")

/-- `main._validate_plugin_requirements` (main.py, lines 166-179): walk the
requested modules in order and `sys.exit(1)` at the first unknown or
failing one.  The result is the single error message echoed before the
exit, or `none` when the function returns normally. -/
def validatePluginRequirements (reg : Registry) : List String → Option String
  | [] => none
  | m :: rest =>
    match alookup reg m with
    | none => some (format_error ("Unknown module: " ++ m))
    | some plugin =>
      if plugin.reqOk then validatePluginRequirements reg rest
      else some (format_error
        ("Module " ++ m ++ " requirements not met: " ++ renderPyOpt plugin.reqErr))

/-- `main._generate_mcp_json` (main.py, lines 228-260).  `existing` is the
parsed pre-existing `.mcp.json` (`none` when the file is absent or
corrupted — both start from `{}`; a file whose top level is not an
object raises before this point in `json.load`-consuming code paths we
model).  Returns the object written back, or `none` when the existing
`"mcpServers"` value is not an object (Python raises `TypeError` on
the item assignment then). -/
def generate_mcp_json (existing : Option JFields) (active : List (String × Plugin)) :
    Option JFields :=
  let cfg : JFields :=
    match existing with
    | some e => e
    | none => []
  let cfg2 : JFields :=
    match alookup cfg "mcpServers" with
    | none => aset cfg "mcpServers" (.obj [])
    | some _ => cfg
  match alookup cfg2 "mcpServers" with
  | some (.obj servers) =>
    some (aset cfg2 "mcpServers"
      (.obj (active.foldl (fun sv np => aset sv np.1 np.2.mcpSection) servers)))
  | _ => none

/-- The enabled (active) plugin list of a run — `active_plugins` in
`main._generate_configuration`: the requested module names that are
present in the registry, in request order, with their instances. -/
def activePlugins (reg : Registry) (modules : List String) : List (String × Plugin) :=
  modules.filterMap fun m => (alookup reg m).map fun p => (m, p)

/-- The env-var accumulation loop of `main._generate_env_file`:
`env_vars.update(plugin.get_env_variables(config))` over the active
plugins, starting from `{}`. -/
def accumulateEnv (active : List (String × Plugin)) : List (Chars × Chars) :=
  active.foldl
    (fun acc np => np.2.envVars.foldl (fun a kv => aset a kv.1 kv.2) acc)
    []

/-- The lines of the `.env` file `main._generate_env_file` writes:
two header comments, a blank line, then `KEY=VALUE` for every
accumulated variable with a truthy (non-empty) value. -/
def envFileLines (version : Chars) (env_vars : List (Chars × Chars)) : List Chars :=
  ("# Environment variables for MCP servers".toList ::
    ("# Generated by claude-mcp-init v".toList ++ version) :: [[]]) ++
  env_vars.filterMap (fun kv => if kv.2.isEmpty then none else some (kv.1 ++ '=' :: kv.2))

/-- `main._generate_env_file` (main.py, lines 263-283): when the
accumulated dict is empty (falsy) no `.env` file is created at all;
otherwise the file holds `envFileLines`. -/
def generate_env_file (version : Chars) (active : List (String × Plugin)) :
    Option (List Chars) :=
  let env_vars := accumulateEnv active
  if env_vars.isEmpty then none else some (envFileLines version env_vars)

/-- The files an `init` run writes into the project directory. -/
structure Writes where
  dirCreated : Bool
  mcpJson : Option JFields
  envFile : Option (List Chars)
  instructionsWritten : Bool

/-- No file has been touched (the state before `_generate_configuration`). -/
def noWrites : Writes := ⟨false, none, none, false⟩

/-- The message `cli` echoes for an invalid project name (main.py, line 95). -/
def invalid_name_message : String :=
  format_error ("Invalid project name. Must start with alphanumeric character " ++
    "and contain only letters, numbers, dots, hyphens, and underscores (max 100 chars).")

/-- The `init` command of `main.py` (`cli`, lines 93-128, followed by
`_generate_configuration`, lines 182-225), from project-name validation
onward, for a run that is not in-place and whose `--mcp` list is already
parsed into `modules`:

1. an invalid project name exits 1 before anything is created;
2. `_validate_plugin_requirements` exits 1 at its first error, still
   before anything is created;
3. otherwise the project directory is created, each active plugin's
   `generate_config_files` runs (an exception exits 1), and
   `.mcp.json`, `.env` and the instructions file are produced.

The result is `(some (exit code, echoed error), files written)` for a
failed run and `(none, files written)` for a successful one. -/
def cliInit (reg : Registry) (project_name : Chars) (version : Chars)
    (existingMcp : Option JFields) (modules : List String) :
    Option (Nat × String) × Writes :=
  if validate_project_name project_name = false then
    (some (1, invalid_name_message), noWrites)
  else
    match validatePluginRequirements reg modules with
    | some msg => (some (1, msg), noWrites)
    | none =>
      let active := modules.filterMap fun m => (alookup reg m).map fun p => (m, p)
      if active.all (fun np => np.2.genOk) then
        match generate_mcp_json existingMcp active with
        | some mcpOut =>
          (none, ⟨true, some mcpOut, generate_env_file version active, true⟩)
        | none => (some (1, "TypeError"), ⟨true, none, none, false⟩)
      else
        (some (1, "generate_config_files raised"), ⟨true, none, none, false⟩)

/-- A well-behaved plugin with no environment variables, used as a
concrete instance in witnesses (Serena contributes no env vars). -/
def samplePlugin : Plugin :=
  { reqOk := true, reqErr := none, genOk := true, envVars := [],
    mcpSection := JValue.obj [] }

/-- A one-module registry holding `samplePlugin` under `"serena"`. -/
def sampleRegistry : Registry := [("serena", samplePlugin)]

/-- A plugin contributing one non-empty and one empty environment
variable, used as a concrete instance in witnesses. -/
def envPlugin : Plugin :=
  { reqOk := true, reqErr := none, genOk := true,
    envVars := [("OPENAI_API_KEY".toList, "sk-test".toList), ("EMPTY_KEY".toList, [])],
    mcpSection := JValue.obj [] }

/-! # Theorems -/

/-! ## Association list lemmas -/

section AssocLemmas

variable {α : Type} {β : Type} [DecidableEq α]

@[simp] theorem alookup_nil (k : α) : alookup ([] : List (α × β)) k = none := rfl

theorem alookup_cons (k' : α) (v : β) (rest : List (α × β)) (k : α) :
    alookup ((k', v) :: rest) k = if k' = k then some v else alookup rest k := rfl

@[simp] theorem akeys_nil : akeys ([] : List (α × β)) = [] := rfl

@[simp] theorem akeys_cons (k : α) (v : β) (rest : List (α × β)) :
    akeys ((k, v) :: rest) = k :: akeys rest := rfl

theorem aset_cons_ne (k' : α) (v' : β) (rest : List (α × β)) (k : α) (v : β)
    (h : k' ≠ k) : aset ((k', v') :: rest) k v = (k', v') :: aset rest k v := by
  simp [aset, h]

theorem alookup_aset_self (l : List (α × β)) (k : α) (v : β) :
    alookup (aset l k v) k = some v := by
  induction l with
  | nil => simp [aset, alookup]
  | cons p rest ih =>
    obtain ⟨k', v'⟩ := p
    by_cases h : k' = k
    · simp [aset, h, alookup]
    · simp [aset, h, alookup_cons, ih]

theorem alookup_aset_ne (l : List (α × β)) (k k₀ : α) (v : β) (h : k₀ ≠ k) :
    alookup (aset l k v) k₀ = alookup l k₀ := by
  have h' : k ≠ k₀ := Ne.symm h
  induction l with
  | nil => simp [aset, alookup, h']
  | cons p rest ih =>
    obtain ⟨k', v'⟩ := p
    by_cases hk : k' = k
    · subst hk
      simp [aset, alookup_cons, h']
    · simp [aset, hk, alookup_cons, ih]

theorem alookup_aset (l : List (α × β)) (k k₀ : α) (v : β) :
    alookup (aset l k v) k₀ = if k = k₀ then some v else alookup l k₀ := by
  by_cases h : k = k₀
  · subst h; simp [alookup_aset_self]
  · simp [h, alookup_aset_ne l k k₀ v (Ne.symm h)]

theorem mem_of_alookup_eq_some {l : List (α × β)} {k : α} {v : β}
    (h : alookup l k = some v) : (k, v) ∈ l := by
  induction l with
  | nil => simp [alookup] at h
  | cons p rest ih =>
    obtain ⟨k', v'⟩ := p
    rw [alookup_cons] at h
    by_cases hk : k' = k
    · subst hk
      rw [if_pos rfl] at h
      obtain rfl : v' = v := Option.some.inj h
      exact List.mem_cons_self _ _
    · rw [if_neg hk] at h
      exact List.mem_cons_of_mem _ (ih h)

theorem alookup_eq_some_of_mem_of_nodup {l : List (α × β)} {k : α} {v : β}
    (hnd : (akeys l).Nodup) (hm : (k, v) ∈ l) : alookup l k = some v := by
  induction l with
  | nil => simp at hm
  | cons p rest ih =>
    obtain ⟨k', v'⟩ := p
    rw [akeys_cons, List.nodup_cons] at hnd
    rcases List.mem_cons.mp hm with h | h
    · cases h
      rw [alookup_cons, if_pos rfl]
    · have hk : k' ≠ k := by
        intro hkk
        exact hnd.1 (by
          rw [hkk]
          exact List.mem_map.mpr ⟨(k, v), h, rfl⟩)
      rw [alookup_cons, if_neg hk]
      exact ih hnd.2 h

theorem akeys_aset (l : List (α × β)) (k : α) (v : β) :
    akeys (aset l k v) = if k ∈ akeys l then akeys l else akeys l ++ [k] := by
  induction l with
  | nil => simp [aset, akeys]
  | cons p rest ih =>
    obtain ⟨k', v'⟩ := p
    by_cases h : k' = k
    · subst h
      simp [aset]
    · rw [aset_cons_ne k' v' rest k v h, akeys_cons, akeys_cons, ih]
      by_cases hm : k ∈ akeys rest
      · rw [if_pos hm, if_pos (List.mem_cons.mpr (Or.inr hm))]
      · rw [if_neg hm, if_neg ?_, List.cons_append]
        intro hc
        rcases List.mem_cons.mp hc with hc | hc
        · exact h hc.symm
        · exact hm hc

theorem nodup_akeys_aset (l : List (α × β)) (k : α) (v : β)
    (h : (akeys l).Nodup) : (akeys (aset l k v)).Nodup := by
  rw [akeys_aset]
  by_cases hm : k ∈ akeys l
  · simpa [hm] using h
  · simpa [hm, List.nodup_append] using h

theorem mem_akeys_of_alookup_eq_some {l : List (α × β)} {k : α} {v : β}
    (h : alookup l k = some v) : k ∈ akeys l :=
  List.mem_map.mpr ⟨(k, v), mem_of_alookup_eq_some h, rfl⟩

theorem mem_akeys_aset (l : List (α × β)) (k k₀ : α) (v : β) :
    k₀ ∈ akeys (aset l k v) ↔ k₀ ∈ akeys l ∨ k₀ = k := by
  rw [akeys_aset]
  by_cases hm : k ∈ akeys l
  · rw [if_pos hm]
    constructor
    · exact Or.inl
    · rintro (h | rfl)
      · exact h
      · exact hm
  · rw [if_neg hm, List.mem_append, List.mem_singleton]

theorem alookup_eq_none_of_not_mem_akeys {l : List (α × β)} {k : α}
    (h : k ∉ akeys l) : alookup l k = none := by
  cases hl : alookup l k with
  | none => rfl
  | some v => exact absurd (mem_akeys_of_alookup_eq_some hl) h

end AssocLemmas

/-! ## C3: `merge_json_file` / `_deep_merge` -/

theorem mergeInto_nil (result : JFields) : mergeInto result [] = result := by
  rw [mergeInto]

theorem mergeInto_cons (result : JFields) (k : String) (v : JValue) (rest : JFields) :
    mergeInto result ((k, v) :: rest) = mergeInto (mergeOne result k v) rest := by
  rw [mergeInto]

theorem alookup_mergeOne_self (result : JFields) (k : String) (v : JValue) :
    alookup (mergeOne result k v) k = some (mergeResult (alookup result k) v) := by
  rw [mergeOne.eq_def, mergeResult.eq_def]
  cases h : alookup result k with
  | none => cases v <;> simp [alookup_aset_self]
  | some jv => cases jv <;> cases v <;> simp [alookup_aset_self]

theorem alookup_mergeOne_ne (result : JFields) (k : String) (v : JValue)
    (k₀ : String) (h : k₀ ≠ k) :
    alookup (mergeOne result k v) k₀ = alookup result k₀ := by
  rw [mergeOne.eq_def]
  cases halt : alookup result k with
  | none => cases v <;> simp [alookup_aset_ne _ _ _ _ h]
  | some jv => cases jv <;> cases v <;> simp [alookup_aset_ne _ _ _ _ h]

/-- Key-level characterization of the `_deep_merge` loop: looking up `k`
after merging `u` into `r` gives the `u` entry (recursively merged when
both sides are objects), or falls through to `r`. -/
theorem alookup_mergeInto :
    ∀ (u r : JFields) (k : String), (akeys u).Nodup →
      alookup (mergeInto r u) k =
        match alookup u k with
        | none => alookup r k
        | some v => some (mergeResult (alookup r k) v) := by
  intro u
  induction u with
  | nil =>
    intro r k _
    simp [mergeInto_nil, alookup_nil]
  | cons p rest ih =>
    intro r k hnd
    obtain ⟨k', v⟩ := p
    rw [akeys_cons, List.nodup_cons] at hnd
    rw [mergeInto_cons, ih (mergeOne r k' v) k hnd.2]
    by_cases hk : k = k'
    · subst hk
      rw [alookup_eq_none_of_not_mem_akeys hnd.1, alookup_cons, if_pos rfl,
        alookup_mergeOne_self]
    · rw [alookup_cons, if_neg (Ne.symm hk)]
      cases alookup rest k with
      | none => exact alookup_mergeOne_ne r k' v k hk
      | some w => rw [alookup_mergeOne_ne r k' v k hk]

/-- C3.  `merge_json_file(path, new_data)`: a missing file is written with
exactly `new_data`; an existing file holding the object `E` is rewritten
with `deep_merge(E, new_data)`, and `deep_merge` merges key by key:
a key only in one mapping keeps its value, a key in both takes the
updating value except that two nested mappings merge recursively. -/
theorem merge_json_file_correct (e u : JFields) (hnd : (akeys u).Nodup) :
    merge_json_file none u = u ∧
    merge_json_file (some e) u = deep_merge e u ∧
    (∀ k, alookup (deep_merge e u) k =
      match alookup u k with
      | none => alookup e k
      | some (.obj uo) =>
        match alookup e k with
        | some (.obj bo) => some (.obj (deep_merge bo uo))
        | _ => some (.obj uo)
      | some v => some v) := by
  refine ⟨rfl, rfl, fun k => ?_⟩
  rw [deep_merge, alookup_mergeInto u e k hnd]
  cases alookup u k with
  | none => rfl
  | some v =>
    cases he : alookup e k with
    | none => cases v <;> simp [mergeResult, deep_merge]
    | some w => cases w <;> cases v <;> simp [mergeResult, deep_merge]

/-- Witness for C3 at a concrete input: `u = {"b": {"y": 3}, "c": "s"}`
merged over `e = {"a": 1, "b": {"x": 2}}`. -/
theorem merge_json_file_correct_witness :
    merge_json_file (some [("a", JValue.num 1), ("b", JValue.obj [("x", JValue.num 2)])])
        [("b", JValue.obj [("y", JValue.num 3)]), ("c", JValue.str "s")] =
      deep_merge [("a", JValue.num 1), ("b", JValue.obj [("x", JValue.num 2)])]
        [("b", JValue.obj [("y", JValue.num 3)]), ("c", JValue.str "s")] ∧
    alookup (deep_merge [("a", JValue.num 1), ("b", JValue.obj [("x", JValue.num 2)])]
        [("b", JValue.obj [("y", JValue.num 3)]), ("c", JValue.str "s")]) "a" =
      some (JValue.num 1) :=
  ⟨(merge_json_file_correct _ _ (by decide)).2.1, by
    have h := (merge_json_file_correct
      [("a", JValue.num 1), ("b", JValue.obj [("x", JValue.num 2)])]
      [("b", JValue.obj [("y", JValue.num 3)]), ("c", JValue.str "s")] (by decide)).2.2 "a"
    rw [h]
    simp [alookup]⟩

/-! ## C10: `normalize_language` -/

theorem toLower_of_not_upper {c : Char} (h : ¬ (c.toNat ≥ 65 ∧ c.toNat ≤ 90)) :
    c.toLower = c := by
  simp only [Char.toLower]
  rw [if_neg h]

theorem toLower_of_upper {c : Char} (h : c.toNat ≥ 65 ∧ c.toNat ≤ 90) :
    c.toLower = Char.ofNat (c.toNat + 32) := by
  simp only [Char.toLower]
  rw [if_pos h]

theorem toNat_ofNat_of_valid {n : Nat} (h : n.isValidChar) :
    (Char.ofNat n).toNat = n := by
  rw [Char.ofNat, dif_pos h]
  rfl

theorem toLower_toLower (c : Char) : c.toLower.toLower = c.toLower := by
  by_cases h : c.toNat ≥ 65 ∧ c.toNat ≤ 90
  · have hv : (c.toNat + 32).isValidChar := Or.inl (by omega)
    have ht : (Char.ofNat (c.toNat + 32)).toNat = c.toNat + 32 := toNat_ofNat_of_valid hv
    rw [toLower_of_upper h]
    exact toLower_of_not_upper (by rw [ht]; omega)
  · rw [toLower_of_not_upper h, toLower_of_not_upper h]

theorem pyLower_pyLower (s : Chars) : pyLower (pyLower s) = pyLower s := by
  simp [pyLower, List.map_map, Function.comp_def, toLower_toLower]

/-- C10.  `normalize_language` is idempotent; any input whose lower-case
form is one of the legacy languages `php`, `elixir`, `clojure`, `c`
(so those words in any letter case) normalizes to `typescript`; every
other input normalizes to its lower-case form — which is then a fixed
point. -/
theorem normalize_language_idempotent :
    (∀ s : Chars, normalize_language (normalize_language s) = normalize_language s) ∧
    (∀ s : Chars,
      (pyLower s = "php".toList ∨ pyLower s = "elixir".toList ∨
       pyLower s = "clojure".toList ∨ pyLower s = "c".toList) →
      normalize_language s = "typescript".toList) ∧
    (∀ s : Chars,
      ¬ (pyLower s = "php".toList ∨ pyLower s = "elixir".toList ∨
         pyLower s = "clojure".toList ∨ pyLower s = "c".toList) →
      normalize_language s = pyLower s) := by
  have hleg : ∀ s : Chars,
      (pyLower s = "php".toList ∨ pyLower s = "elixir".toList ∨
       pyLower s = "clojure".toList ∨ pyLower s = "c".toList) →
      normalize_language s = "typescript".toList := by
    intro s h
    simp only [normalize_language]
    rw [if_pos h]
  have hoth : ∀ s : Chars,
      ¬ (pyLower s = "php".toList ∨ pyLower s = "elixir".toList ∨
         pyLower s = "clojure".toList ∨ pyLower s = "c".toList) →
      normalize_language s = pyLower s := by
    intro s h
    simp only [normalize_language]
    rw [if_neg h]
  have hts : normalize_language ("typescript".toList) = "typescript".toList := by decide
  refine ⟨?_, hleg, hoth⟩
  intro s
  by_cases h : pyLower s = "php".toList ∨ pyLower s = "elixir".toList ∨
      pyLower s = "clojure".toList ∨ pyLower s = "c".toList
  · rw [hleg s h, hts]
  · rw [hoth s h]
    have h' : ¬ (pyLower (pyLower s) = "php".toList ∨
        pyLower (pyLower s) = "elixir".toList ∨
        pyLower (pyLower s) = "clojure".toList ∨
        pyLower (pyLower s) = "c".toList) := by
      rw [pyLower_pyLower]; exact h
    rw [hoth (pyLower s) h', pyLower_pyLower]

/-- Witness for C10: `"PHP"` (upper case) normalizes to `typescript`, and
`"Rust"` normalizes to its lower-case form `"rust"`. -/
theorem normalize_language_idempotent_witness :
    normalize_language ("PHP".toList) = "typescript".toList ∧
    normalize_language ("Rust".toList) = "rust".toList :=
  ⟨normalize_language_idempotent.2.1 _ (by decide),
   normalize_language_idempotent.2.2 _ (by decide)⟩

/-! ## C8: `validate_project_name` -/

theorem matchesCore_eq_claim (s : Chars) : matchesCore s = claimNamePattern s := by
  cases s with
  | nil => rfl
  | cons c rest =>
    simp only [matchesCore, claimNamePattern, List.length_cons]
    rw [show (decide (rest.length ≤ 99)) = decide (rest.length + 1 ≤ 100) from
      decide_eq_decide.mpr (by omega)]
    cases isAsciiAlnum c <;> cases rest.all isNameTailChar <;>
      cases decide (rest.length + 1 ≤ 100) <;> rfl

/-- C8 counterexample: Python's `re.match` with the anchored pattern also
accepts `"a\n"` (the `$` anchor matches just before a single trailing
newline), but `'\n'` is not in the claimed character class. -/
theorem validate_project_name_newline_counterexample :
    validate_project_name ("a\n".toList) = true ∧
    claimNamePattern ("a\n".toList) = false := by decide

/-- C8 (amended).  `validate_project_name` accepts exactly the strings
matching the claim's full-string pattern `^[A-Za-z0-9][A-Za-z0-9._-]{0,99}$`
*or* such a match followed by one trailing newline (Python `$`
semantics); and a name that fails the check makes the init run exit
with code 1 before anything is generated. -/
theorem validate_project_name_correct :
    (∀ s : Chars, validate_project_name s =
      (claimNamePattern s ||
        (s.getLast? == some '\n' && claimNamePattern s.dropLast))) ∧
    (∀ (reg : Registry) (name version : Chars) (existing : Option JFields)
        (modules : List String), validate_project_name name = false →
      cliInit reg name version existing modules =
        (some (1, invalid_name_message), noWrites)) := by
  constructor
  · intro s
    rw [validate_project_name, matchesCore_eq_claim, matchesCore_eq_claim]
  · intro reg name version existing modules h
    rw [cliInit, if_pos h]

/-- Witness for C8's amended run clause: the name `"-bad"` (leading dash)
is rejected and the run exits 1 having written nothing. -/
theorem validate_project_name_correct_witness :
    cliInit [] ("-bad".toList) [] none [] =
      (some (1, invalid_name_message), noWrites) :=
  validate_project_name_correct.2 [] ("-bad".toList) [] none [] (by decide)

/-! ## C4: requirement validation -/

/-- C4 (amended).  `PluginManager.validate_all_requirements` aggregates:
its error list has exactly one entry per requested module that is
unknown or whose `validate_requirements` fails, in request order, and
its boolean is true exactly when that list is empty.  (The `init`
command of `main.py`, however, does not call it: its
`_validate_plugin_requirements` exits at the first failure — see the
counterexample.) -/
theorem validate_all_requirements_aggregates (reg : Registry) (names : List String) :
    (validate_all_requirements reg names).2 =
      names.filterMap (requirementErrorEntry reg) ∧
    ((validate_all_requirements reg names).1 = true ↔
      names.filterMap (requirementErrorEntry reg) = []) := by
  have key : ∀ (ns acc : List String),
      List.foldl
        (fun errs name =>
          match alookup reg name with
          | some plugin =>
            if plugin.reqOk then errs
            else errs ++ [name ++ ": " ++ renderPyOpt plugin.reqErr]
          | none => errs ++ ["Plugin " ++ name ++ " not found"])
        acc ns
      = acc ++ ns.filterMap (requirementErrorEntry reg) := by
    intro ns
    induction ns with
    | nil => intro acc; simp
    | cons n rest ih =>
      intro acc
      rw [List.foldl_cons, List.filterMap_cons]
      cases halt : alookup reg n with
      | none =>
        rw [ih]
        simp [requirementErrorEntry, halt, List.append_assoc]
      | some p =>
        by_cases hp : p.reqOk
        · rw [ih]
          simp [requirementErrorEntry, halt, hp]
        · rw [ih]
          simp [requirementErrorEntry, halt, hp, List.append_assoc]
  have he : validate_all_requirements reg names =
      ((names.filterMap (requirementErrorEntry reg)).length == 0,
        names.filterMap (requirementErrorEntry reg)) := by
    rw [validate_all_requirements, key names []]
    simp
  rw [he]
  refine ⟨rfl, ?_⟩
  rw [beq_iff_eq, List.length_eq_zero]

/-- C4 counterexample: with an empty registry and request
`["alpha", "beta"]`, the aggregate list does contain both errors, but the
`init` run (`_validate_plugin_requirements`) echoes only the first
unknown-module message and exits; `beta` never appears in what the run
surfaces. -/
theorem validate_first_error_only_counterexample :
    validate_all_requirements [] ["alpha", "beta"] =
      (false, ["Plugin alpha not found", "Plugin beta not found"]) ∧
    validatePluginRequirements [] ["alpha", "beta"] =
      some (format_error ("Unknown module: alpha")) ∧
    ¬ ("beta".toList <:+: (format_error ("Unknown module: alpha")).toList) := by
  refine ⟨by decide, rfl, by decide⟩

/-! ## C2: unknown modules abort the run before any file is written -/

/-- When every registered plugin's requirements hold,
`_validate_plugin_requirements` exits with the unknown-module message of
the first requested name that is not in the registry. -/
theorem validatePluginRequirements_first_unknown (reg : Registry) :
    ∀ modules : List String, (∃ m ∈ modules, alookup reg m = none) →
      (∀ p ∈ reg, (Prod.snd p).reqOk = true) →
      ∃ u ∈ modules, alookup reg u = none ∧
        validatePluginRequirements reg modules =
          some (format_error ("Unknown module: " ++ u)) := by
  intro modules
  induction modules with
  | nil =>
    rintro ⟨m, hm, _⟩ _
    simp at hm
  | cons n rest ih =>
    rintro ⟨m, hm, hmu⟩ hreq
    cases hn : alookup reg n with
    | none =>
      refine ⟨n, List.mem_cons_self _ _, hn, ?_⟩
      simp only [validatePluginRequirements, hn]
    | some p =>
      have hpok : p.reqOk = true := hreq (n, p) (mem_of_alookup_eq_some hn)
      have hm' : m ∈ rest := by
        rcases List.mem_cons.mp hm with rfl | h
        · rw [hn] at hmu
          exact absurd hmu (by simp)
        · exact h
      obtain ⟨u, hu1, hu2, hu3⟩ := ih ⟨m, hm', hmu⟩ hreq
      refine ⟨u, List.mem_cons_of_mem _ hu1, hu2, ?_⟩
      simp only [validatePluginRequirements, hn, hpok, if_true]
      exact hu3

/-- C2.  An init run whose requested module list contains a name absent
from the plugin registry exits with code 1 echoing an unknown-module
error that names an unknown module from the list, and no project files
are created (the run stops before `_generate_configuration`).  The
hypotheses pin down the run as otherwise healthy: the project name is
valid and every registered module's requirements hold — without them
the run still exits 1 with nothing created, but at an earlier error that
does not name the module. -/
theorem unknown_module_aborts (reg : Registry) (project_name version : Chars)
    (existing : Option JFields) (modules : List String) (m : String)
    (hm : m ∈ modules) (hu : alookup reg m = none)
    (hname : validate_project_name project_name = true)
    (hreq : ∀ p ∈ reg, (Prod.snd p).reqOk = true) :
    ∃ u, u ∈ modules ∧ alookup reg u = none ∧
      cliInit reg project_name version existing modules =
        (some (1, format_error ("Unknown module: " ++ u)), noWrites) := by
  obtain ⟨u, hu1, hu2, hu3⟩ :=
    validatePluginRequirements_first_unknown reg modules ⟨m, hm, hu⟩ hreq
  refine ⟨u, hu1, hu2, ?_⟩
  rw [cliInit, if_neg (by simp [hname]), hu3]

/-- Witness for C2: requesting `["serena", "bogus"]` against the
one-module registry exits with the message naming `bogus` and writes
nothing. -/
theorem unknown_module_aborts_witness :
    ∃ u, u ∈ ["serena", "bogus"] ∧ alookup sampleRegistry u = none ∧
      cliInit sampleRegistry ("proj".toList) [] none ["serena", "bogus"] =
        (some (1, format_error ("Unknown module: " ++ u)), noWrites) :=
  unknown_module_aborts sampleRegistry ("proj".toList) [] none ["serena", "bogus"]
    "bogus" (by decide) rfl (by decide) (by decide)

/-! ## C9: no `.env` file when no module contributes variables -/

theorem accumulateEnv_of_no_vars (active : List (String × Plugin))
    (h : ∀ np ∈ active, (Prod.snd np).envVars = []) : accumulateEnv active = [] := by
  have key : ∀ (l : List (String × Plugin)) (acc : List (Chars × Chars)),
      (∀ np ∈ l, (Prod.snd np).envVars = []) →
      List.foldl
        (fun acc np => np.2.envVars.foldl (fun a kv => aset a kv.1 kv.2) acc)
        acc l = acc := by
    intro l
    induction l with
    | nil => intro acc _; rfl
    | cons np rest ih =>
      intro acc hl
      rw [List.foldl_cons]
      rw [show np.2.envVars.foldl (fun a kv => aset a kv.1 kv.2) acc = acc from by
        rw [hl np (List.mem_cons_self _ _)]
        rfl]
      exact ih acc fun q hq => hl q (List.mem_cons_of_mem _ hq)
  rw [accumulateEnv]
  exact key active [] h

/-- C9.  When every *enabled* module — requested in this run and present
in the registry — contributes an empty environment-variable mapping for
the run's configuration, the run creates no `.env` file at all
(`_generate_env_file` writes nothing when the accumulated dict is
falsy), whichever way the run ends.  Modules that are registered but
not selected may contribute variables; only the enabled ones matter. -/
theorem no_env_file_when_plugins_contribute_nothing (reg : Registry)
    (project_name version : Chars) (existing : Option JFields)
    (modules : List String)
    (hempty : ∀ np ∈ activePlugins reg modules, (Prod.snd np).envVars = []) :
    (cliInit reg project_name version existing modules).2.envFile = none := by
  have hactive : ∀ np ∈ modules.filterMap
      (fun m => (alookup reg m).map fun p => (m, p)),
      (Prod.snd np).envVars = [] := hempty
  rw [cliInit]
  by_cases h1 : validate_project_name project_name = false
  · rw [if_pos h1]
    rfl
  · rw [if_neg h1]
    cases hv : validatePluginRequirements reg modules with
    | some msg => rfl
    | none =>
      simp only []
      have hacc : accumulateEnv (modules.filterMap
          (fun m => (alookup reg m).map fun p => (m, p))) = [] :=
        accumulateEnv_of_no_vars _ hactive
      by_cases hg : (modules.filterMap
          (fun m => (alookup reg m).map fun p => (m, p))).all
            (fun np => np.2.genOk)
      · rw [if_pos hg]
        cases hmc : generate_mcp_json existing (modules.filterMap
            (fun m => (alookup reg m).map fun p => (m, p))) with
        | some mcpOut =>
          show generate_env_file version _ = none
          rw [generate_env_file, hacc]
          rfl
        | none => rfl
      · rw [if_neg hg]

/-- Witness for C9: the registry holds both the env-free `serena` module
and the env-contributing `cipher` module; a `serena`-only run creates
no `.env` file even though `cipher` (registered but not enabled) would
contribute variables. -/
theorem no_env_file_witness :
    (cliInit [("serena", samplePlugin), ("cipher", envPlugin)] ("proj".toList)
      [] none ["serena"]).2.envFile = none :=
  no_env_file_when_plugins_contribute_nothing
    [("serena", samplePlugin), ("cipher", envPlugin)] ("proj".toList) [] none
    ["serena"] (by decide)

/-! ## C1: merging `.mcp.json` preserves unrelated server entries -/

theorem alookup_foldl_aset_sections (active : List (String × Plugin)) :
    ∀ (servers : JFields) (key : String), (∀ np ∈ active, Prod.fst np ≠ key) →
      alookup (active.foldl (fun sv np => aset sv np.1 np.2.mcpSection) servers) key =
        alookup servers key := by
  induction active with
  | nil => intro servers key _; rfl
  | cons np rest ih =>
    intro servers key h
    rw [List.foldl_cons, ih _ key fun q hq => h q (List.mem_cons_of_mem _ hq),
      alookup_aset_ne _ _ _ _ (Ne.symm (h np (List.mem_cons_self _ _)))]

theorem generate_mcp_json_eq (existing : JFields) (servers : JFields)
    (active : List (String × Plugin))
    (hserv : alookup existing "mcpServers" = some (JValue.obj servers)) :
    generate_mcp_json (some existing) active =
      some (aset existing "mcpServers"
        (JValue.obj (active.foldl (fun sv np => aset sv np.1 np.2.mcpSection) servers))) := by
  rw [generate_mcp_json]
  simp only [hserv]

/-- C1.  Running `init` against a directory whose `.mcp.json` already
exists (and has an object under `"mcpServers"`) rewrites the file so
that every server entry whose key is not among the requested module
names is still present with an unchanged value: the run's written
object maps `"mcpServers"` to an object that agrees with the old one on
every such key. -/
theorem mcp_json_preserves_unrelated (reg : Registry) (project_name version : Chars)
    (existing servers : JFields) (modules : List String) (key : String)
    (exit : Option (Nat × String)) (writes : Writes) (mcpOut : JFields)
    (hserv : alookup existing "mcpServers" = some (JValue.obj servers))
    (hkey : key ∉ modules)
    (hrun : cliInit reg project_name version (some existing) modules = (exit, writes))
    (hout : writes.mcpJson = some mcpOut) :
    ∃ servers', alookup mcpOut "mcpServers" = some (JValue.obj servers') ∧
      alookup servers' key = alookup servers key := by
  rw [cliInit] at hrun
  by_cases h1 : validate_project_name project_name = false
  · rw [if_pos h1] at hrun
    injection hrun with he hw
    subst hw
    exact absurd hout (by simp [noWrites])
  · rw [if_neg h1] at hrun
    cases hv : validatePluginRequirements reg modules with
    | some msg =>
      rw [hv] at hrun
      injection hrun with he hw
      subst hw
      exact absurd hout (by simp [noWrites])
    | none =>
      rw [hv] at hrun
      simp only [] at hrun
      have hkeyX : ∀ np ∈ modules.filterMap
          (fun m => (alookup reg m).map fun p => (m, p)), Prod.fst np ≠ key := by
        intro np hnp
        obtain ⟨m, hmm, hmap⟩ := List.mem_filterMap.mp hnp
        obtain ⟨p, _, hfp⟩ := Option.map_eq_some'.mp hmap
        have : np.1 = m := by rw [← hfp]
        rw [this]
        intro hcontra
        exact hkey (hcontra ▸ hmm)
      by_cases hg : (modules.filterMap
          (fun m => (alookup reg m).map fun p => (m, p))).all
            (fun np => np.2.genOk)
      · rw [if_pos hg] at hrun
        rw [generate_mcp_json_eq existing servers _ hserv] at hrun
        injection hrun with he hw
        subst hw
        simp only [Option.some.injEq] at hout
        refine ⟨(modules.filterMap
          (fun m => (alookup reg m).map fun p => (m, p))).foldl
            (fun sv np => aset sv np.1 np.2.mcpSection) servers, ?_, ?_⟩
        · rw [← hout, alookup_aset_self]
        · exact alookup_foldl_aset_sections _ servers key hkeyX
      · rw [if_neg hg] at hrun
        injection hrun with he hw
        subst hw
        exact absurd hout (by simp)

/-- Witness for C1: a concrete re-run.  The pre-existing file holds an
unrelated `"other"` entry; the run over `["serena"]` keeps it
unchanged. -/
theorem mcp_json_preserves_unrelated_witness :
    ∃ servers', alookup
        [("mcpServers", JValue.obj
          [("other", JValue.str "keep"), ("serena", JValue.obj [])])]
        "mcpServers" = some (JValue.obj servers') ∧
      alookup servers' "other" =
        alookup [("other", JValue.str "keep")] "other" :=
  mcp_json_preserves_unrelated sampleRegistry ("proj".toList) []
    [("mcpServers", JValue.obj [("other", JValue.str "keep")])]
    [("other", JValue.str "keep")] ["serena"] "other"
    none
    ⟨true, some [("mcpServers", JValue.obj
      [("other", JValue.str "keep"), ("serena", JValue.obj [])])], none, true⟩
    [("mcpServers", JValue.obj
      [("other", JValue.str "keep"), ("serena", JValue.obj [])])]
    rfl (by decide) rfl rfl

/-! ## C5: `.env` lines are written exactly for non-empty values -/

theorem nodup_akeys_foldl_aset {α β : Type} [DecidableEq α] :
    ∀ (xs acc : List (α × β)), (akeys acc).Nodup →
      (akeys (xs.foldl (fun a kv => aset a kv.1 kv.2) acc)).Nodup := by
  intro xs
  induction xs with
  | nil => intro acc h; exact h
  | cons kv rest ih =>
    intro acc h
    rw [List.foldl_cons]
    exact ih _ (nodup_akeys_aset _ _ _ h)

theorem mem_akeys_foldl_aset {α β : Type} [DecidableEq α] :
    ∀ (xs acc : List (α × β)) (k : α),
      k ∈ akeys (xs.foldl (fun a kv => aset a kv.1 kv.2) acc) →
      k ∈ akeys acc ∨ k ∈ akeys xs := by
  intro xs
  induction xs with
  | nil => intro acc k h; exact Or.inl h
  | cons kv rest ih =>
    intro acc k h
    rw [List.foldl_cons] at h
    rcases ih (aset acc kv.1 kv.2) k h with h' | h'
    · rcases (mem_akeys_aset acc kv.1 k kv.2).mp h' with h'' | rfl
      · exact Or.inl h''
      · exact Or.inr (List.mem_map.mpr ⟨kv, List.mem_cons_self _ _, rfl⟩)
    · obtain ⟨q, hq, hfq⟩ := List.mem_map.mp h'
      exact Or.inr (List.mem_map.mpr ⟨q, List.mem_cons_of_mem _ hq, hfq⟩)

theorem nodup_akeys_accumulateEnv (active : List (String × Plugin)) :
    (akeys (accumulateEnv active)).Nodup := by
  rw [accumulateEnv]
  have key : ∀ (l : List (String × Plugin)) (acc : List (Chars × Chars)),
      (akeys acc).Nodup →
      (akeys (l.foldl
        (fun acc np => np.2.envVars.foldl (fun a kv => aset a kv.1 kv.2) acc)
        acc)).Nodup := by
    intro l
    induction l with
    | nil => intro acc h; exact h
    | cons np rest ih =>
      intro acc h
      rw [List.foldl_cons]
      exact ih _ (nodup_akeys_foldl_aset _ _ h)
  exact key active [] (by simp [akeys])

theorem mem_akeys_accumulateEnv (active : List (String × Plugin)) (k : Chars)
    (h : k ∈ akeys (accumulateEnv active)) :
    ∃ np ∈ active, k ∈ akeys (Prod.snd np).envVars := by
  rw [accumulateEnv] at h
  have key : ∀ (l : List (String × Plugin)) (acc : List (Chars × Chars)),
      k ∈ akeys (l.foldl
        (fun acc np => np.2.envVars.foldl (fun a kv => aset a kv.1 kv.2) acc)
        acc) →
      k ∈ akeys acc ∨ ∃ np ∈ l, k ∈ akeys (Prod.snd np).envVars := by
    intro l
    induction l with
    | nil => intro acc hh; exact Or.inl hh
    | cons np rest ih =>
      intro acc hh
      rw [List.foldl_cons] at hh
      rcases ih _ hh with h' | h'
      · rcases mem_akeys_foldl_aset np.2.envVars acc k h' with h'' | h''
        · exact Or.inl h''
        · exact Or.inr ⟨np, List.mem_cons_self _ _, h''⟩
      · obtain ⟨q, hq, hkq⟩ := h'
        exact Or.inr ⟨q, List.mem_cons_of_mem _ hq, hkq⟩
  rcases key active [] h with h' | h'
  · simp [akeys] at h'
  · exact h'

/-- If two `KEY=VALUE` renderings agree and neither key contains `'='`,
the keys and the values agree. -/
theorem env_line_split :
    ∀ (k k' v v' : Chars), '=' ∉ k → '=' ∉ k' →
      k ++ '=' :: v = k' ++ '=' :: v' → k = k' ∧ v = v' := by
  intro k
  induction k with
  | nil =>
    intro k' v v' _ hk' heq
    cases k' with
    | nil =>
      refine ⟨rfl, ?_⟩
      simpa using heq
    | cons c rest =>
      rw [List.nil_append, List.cons_append] at heq
      injection heq with h1 h2
      exact absurd (h1 ▸ List.mem_cons_self c rest) hk'
  | cons c kt ih =>
    intro k' v v' hk hk' heq
    cases k' with
    | nil =>
      rw [List.nil_append, List.cons_append] at heq
      injection heq with h1 h2
      exact absurd (h1.symm ▸ List.mem_cons_self c kt) hk
    | cons c' rest' =>
      rw [List.cons_append, List.cons_append] at heq
      injection heq with h1 h2
      obtain ⟨ha, hb⟩ := ih rest' v v'
        (fun hh => hk (List.mem_cons_of_mem _ hh))
        (fun hh => hk' (List.mem_cons_of_mem _ hh)) h2
      exact ⟨by rw [h1, ha], hb⟩

/-- C5.  A `KEY=VALUE` line occurs in the written `.env` file exactly for
the accumulated variables whose value is non-empty (hypotheses: keys and
the version string are `'='`-free, as in this code base, so that lines
identify their variable unambiguously). -/
theorem env_file_value_iff (version : Chars) (active : List (String × Plugin))
    (hkeys : ∀ np ∈ active, ∀ kv ∈ (Prod.snd np).envVars, '=' ∉ Prod.fst kv)
    (hver : '=' ∉ version) (lines : List Chars)
    (hgen : generate_env_file version active = some lines) :
    ∀ k v, alookup (accumulateEnv active) k = some v →
      ((k ++ '=' :: v) ∈ lines ↔ v ≠ []) := by
  have hkeysAcc : ∀ kv ∈ accumulateEnv active, '=' ∉ (Prod.fst kv) := by
    intro kv hkvm
    obtain ⟨np, hnp, hk⟩ := mem_akeys_accumulateEnv active kv.1
      (List.mem_map.mpr ⟨kv, hkvm, rfl⟩)
    obtain ⟨kv', hkv2, hfst⟩ := List.mem_map.mp hk
    exact hfst ▸ hkeys np hnp kv' hkv2
  rw [generate_env_file] at hgen
  by_cases he : (accumulateEnv active).isEmpty
  · rw [if_pos he] at hgen
    exact absurd hgen (by simp)
  · rw [if_neg he] at hgen
    obtain rfl : envFileLines version (accumulateEnv active) = lines :=
      Option.some.inj hgen
    intro k v hkv
    have hkeq : '=' ∉ k := hkeysAcc (k, v) (mem_of_alookup_eq_some hkv)
    have hline : '=' ∈ k ++ '=' :: v :=
      List.mem_append.mpr (Or.inr (List.mem_cons_self _ _))
    constructor
    · intro hmem
      rw [envFileLines] at hmem
      rcases List.mem_append.mp hmem with hh | hf
      · exfalso
        simp only [List.cons_append, List.nil_append, List.mem_cons,
          List.mem_singleton] at hh
        rcases hh with h | h | h
        · rw [h] at hline
          exact absurd hline (by decide)
        · rw [h] at hline
          rcases List.mem_append.mp hline with h' | h'
          · exact absurd h' (by decide)
          · exact hver h'
        · rcases h with h | h
          · rw [h] at hline
            exact absurd hline (by simp)
          · simp at h
      · obtain ⟨kv, hkvmem, hkveq⟩ := List.mem_filterMap.mp hf
        by_cases hkv2 : kv.2.isEmpty
        · rw [if_pos hkv2] at hkveq
          exact absurd hkveq (by simp)
        · rw [if_neg hkv2] at hkveq
          have heq := Option.some.inj hkveq
          obtain ⟨hk1, hv1⟩ :=
            env_line_split kv.1 k kv.2 v (hkeysAcc kv hkvmem) hkeq heq
          have hl2 : alookup (accumulateEnv active) k = some kv.2 := by
            refine alookup_eq_some_of_mem_of_nodup (nodup_akeys_accumulateEnv active) ?_
            rw [← hk1]
            exact hkvmem
          rw [hkv] at hl2
          have h2v : kv.2 = v := (Option.some.inj hl2).symm
          intro hc
          rw [hc] at h2v
          exact hkv2 (by rw [h2v]; rfl)
    · intro hv
      have hmem : (k, v) ∈ accumulateEnv active := mem_of_alookup_eq_some hkv
      rw [envFileLines]
      refine List.mem_append.mpr (Or.inr ?_)
      refine List.mem_filterMap.mpr ⟨(k, v), hmem, ?_⟩
      rw [if_neg (by simpa [List.isEmpty_iff] using hv)]

/-- Witness for C5: with `envPlugin` active, the non-empty
`OPENAI_API_KEY=sk-test` line is present and the empty-valued
`EMPTY_KEY=` line is absent. -/
theorem env_file_value_iff_witness :
    (("OPENAI_API_KEY".toList ++ '=' :: "sk-test".toList) ∈
        envFileLines [] (accumulateEnv [("cipher", envPlugin)]) ↔
      "sk-test".toList ≠ []) ∧
    (("EMPTY_KEY".toList ++ '=' :: ([] : Chars)) ∈
        envFileLines [] (accumulateEnv [("cipher", envPlugin)]) ↔
      ([] : Chars) ≠ []) :=
  ⟨env_file_value_iff [] [("cipher", envPlugin)] (by decide) (by decide)
      (envFileLines [] (accumulateEnv [("cipher", envPlugin)])) rfl
      ("OPENAI_API_KEY".toList) ("sk-test".toList) rfl,
   env_file_value_iff [] [("cipher", envPlugin)] (by decide) (by decide)
      (envFileLines [] (accumulateEnv [("cipher", envPlugin)])) rfl
      ("EMPTY_KEY".toList) ([] : Chars) rfl⟩

/-! ## C7: the `{project_path}` placeholder replacement -/

theorem nilPre {α : Type} {l : List α} : ([] : List α) <+: l := List.nil_prefix

theorem fromPre {α : Type} {l x : List α} (h : l <+: x) : l <:+: x := by
  obtain ⟨t, ht⟩ := h
  exact ⟨[], t, by rw [List.nil_append, ht]⟩

theorem isPreOfIff {l₁ l₂ : Chars} : l₁.isPrefixOf l₂ = true ↔ l₁ <+: l₂ :=
  List.isPrefixOf_iff_prefix

theorem infixConsOf {α : Type} {l xs : List α} (c : α) (h : l <:+: xs) :
    l <:+: c :: xs := by
  obtain ⟨u, w, huw⟩ := h
  exact ⟨c :: u, w, by rw [List.cons_append, List.cons_append, huw]⟩

theorem replaceAux_skip (repl : Chars) :
    ∀ (n : Nat) (s : Chars), replaceAux repl (n + 1) s = replaceAux repl n (s.drop 1) := by
  intro n s
  cases s with
  | nil =>
    rw [List.drop_nil]
    cases n <;> rfl
  | cons c rest => rfl

theorem replaceToken_nil (repl : Chars) : replaceToken repl [] = [] := rfl

theorem replaceAux_eq_drop (repl : Chars) :
    ∀ (n : Nat) (s : Chars), replaceAux repl n s = replaceToken repl (s.drop n) := by
  intro n
  induction n with
  | zero => intro s; rfl
  | succ m ih =>
    intro s
    cases s with
    | nil =>
      rw [List.drop_nil, replaceToken_nil]
      rfl
    | cons c rest =>
      show replaceAux repl m rest = _
      rw [ih rest]
      rfl

/-- The one-step equation of `replaceToken`, in the shape of the Python
scan: a position where the token starts contributes `repl` and the scan
resumes after the token; any other position copies its character. -/
theorem replaceToken_cons (repl : Chars) (c : Char) (rest : Chars) :
    replaceToken repl (c :: rest) =
      if projectPathToken.isPrefixOf (c :: rest) then
        repl ++ replaceToken repl ((c :: rest).drop projectPathToken.length)
      else
        c :: replaceToken repl rest := by
  show replaceAux repl 0 (c :: rest) = _
  rw [replaceAux]
  by_cases h : projectPathToken.isPrefixOf (c :: rest)
  · rw [if_pos h, if_pos h, replaceAux_eq_drop]
    rfl
  · rw [if_neg h, if_neg h]
    rfl

theorem prefix_append_split {α : Type} {l x y : List α} (h : l <+: x ++ y) :
    l <+: x ∨ ∃ t, l = x ++ t ∧ t <+: y := by
  induction x generalizing l with
  | nil => exact Or.inr ⟨l, rfl, h⟩
  | cons c xs ih =>
    cases l with
    | nil => exact Or.inl nilPre
    | cons d ls =>
      rw [List.cons_append] at h
      obtain ⟨rfl, hls⟩ := List.cons_prefix_cons.mp h
      rcases ih hls with h' | ⟨t, rfl, ht⟩
      · exact Or.inl (List.cons_prefix_cons.mpr ⟨rfl, h'⟩)
      · exact Or.inr ⟨t, by rw [List.cons_append], ht⟩

theorem infix_append_split {α : Type} {l x y : List α} (h : l <:+: x ++ y) :
    l <:+: x ∨ l <:+: y ∨
      ∃ a b, l = a ++ b ∧ a ≠ [] ∧ b ≠ [] ∧ a <:+ x ∧ b <+: y := by
  induction x generalizing l with
  | nil => exact Or.inr (Or.inl h)
  | cons c xs ih =>
    rw [List.cons_append] at h
    rcases List.infix_cons_iff.mp h with hp | hi
    · cases l with
      | nil => exact Or.inl (fromPre nilPre)
      | cons d ls =>
        obtain ⟨rfl, hls⟩ := List.cons_prefix_cons.mp hp
        rcases prefix_append_split hls with h' | ⟨t, rfl, ht⟩
        · exact Or.inl (fromPre (List.cons_prefix_cons.mpr ⟨rfl, h'⟩))
        · cases t with
          | nil =>
            refine Or.inl (fromPre ?_)
            rw [List.append_nil]
          | cons t0 ts =>
            refine Or.inr (Or.inr ⟨d :: xs, t0 :: ts, ?_, by simp, by simp,
              List.suffix_rfl, ht⟩)
            rw [List.cons_append]
    · rcases ih hi with h' | h' | ⟨a, b, rfl, ha, hb, hax, hby⟩
      · exact Or.inl (infixConsOf c h')
      · exact Or.inr (Or.inl h')
      · exact Or.inr (Or.inr ⟨a, b, rfl, ha, hb, hax.trans (List.suffix_cons c xs), hby⟩)

theorem open_brace_mem {t : Chars} (ht : t ≠ []) (h : t <+: projectPathToken) :
    '{' ∈ t := by
  have hall : ∀ t' ∈ projectPathToken.inits, t' ≠ [] → '{' ∈ t' := by decide
  exact hall t ((List.mem_inits t projectPathToken).mpr h) ht

theorem close_brace_mem {t : Chars} (ht : t ≠ []) (h : t <:+ projectPathToken) :
    '}' ∈ t := by
  have hall : ∀ t' ∈ projectPathToken.tails, t' ≠ [] → '}' ∈ t' := by decide
  exact hall t ((List.mem_tails t projectPathToken).mpr h) ht

/-- After `replaceToken`, no occurrence of the token remains, and a proper
suffix of the token that starts the output already started the input —
provided the replacement string contains no brace and is not an infix of
the token (true of any real absolute path, which contains `/`,
a character the token lacks, and no braces). -/
theorem replaceToken_clean (repl : Chars)
    (hop : '{' ∉ repl) (hcl : '}' ∉ repl)
    (hni : ¬ repl <:+: projectPathToken) :
    ∀ (n : Nat) (s : Chars), s.length ≤ n →
      (¬ projectPathToken <:+: replaceToken repl s) ∧
      (∀ t, t <:+ projectPathToken → t.length < projectPathToken.length →
        t <+: replaceToken repl s → t <+: s) := by
  have hnil : (¬ projectPathToken <:+: replaceToken repl []) ∧
      (∀ t, t <:+ projectPathToken → t.length < projectPathToken.length →
        t <+: replaceToken repl [] → t <+: ([] : Chars)) := by
    constructor
    · rw [replaceToken_nil]
      intro h
      have := h.length_le
      simp [projectPathToken] at this
    · intro t _ _ hpre
      rw [replaceToken_nil] at hpre
      obtain rfl := List.prefix_nil.mp hpre
      exact nilPre
  intro n
  induction n with
  | zero =>
    intro s hs
    obtain rfl : s = [] := List.length_eq_zero.mp (Nat.le_zero.mp hs)
    exact hnil
  | succ n ih =>
    intro s hs
    cases s with
    | nil => exact hnil
    | cons c rest =>
      rw [List.length_cons] at hs
      by_cases hpre : projectPathToken.isPrefixOf (c :: rest)
      · rw [replaceToken_cons, if_pos hpre]
        have hlen : ((c :: rest).drop projectPathToken.length).length ≤ n := by
          rw [List.length_drop, List.length_cons,
            show projectPathToken.length = 14 from rfl]
          omega
        obtain ⟨ihP, ihQ⟩ := ih _ hlen
        constructor
        · intro hinf
          rcases infix_append_split hinf with h1 | h2 | ⟨a, b, heq, ha, _, hax, _⟩
          · exact hop (h1.subset (by decide))
          · exact ihP h2
          · have hpa : a <+: projectPathToken := heq ▸ List.prefix_append a b
            exact hop (hax.subset (open_brace_mem ha hpa))
        · intro t hts htl hpre2
          rcases prefix_append_split hpre2 with h1 | ⟨u, rfl, hu⟩
          · by_cases htn : t = []
            · subst htn; exact nilPre
            · exact absurd (h1.subset (close_brace_mem htn hts)) hcl
          · exfalso
            obtain ⟨w, hw⟩ := hts
            exact hni ⟨w, u, by rw [← hw, List.append_assoc]⟩
      · rw [replaceToken_cons, if_neg hpre]
        have hlen : rest.length ≤ n := by omega
        obtain ⟨ihP, ihQ⟩ := ih rest hlen
        constructor
        · intro hinf
          rcases List.infix_cons_iff.mp hinf with hp | hi
          · have hne : ¬ projectPathToken <+: c :: rest :=
              fun hh => hpre (isPreOfIff.mpr hh)
            apply hne
            rw [show projectPathToken = '{' :: projectPathTokenTail from rfl] at hp ⊢
            obtain ⟨hc, htl⟩ := List.cons_prefix_cons.mp hp
            refine List.cons_prefix_cons.mpr ⟨hc, ?_⟩
            exact ihQ _ (by decide) (by decide) htl
          · exact ihP hi
        · intro t hts htl hpre2
          cases t with
          | nil => exact nilPre
          | cons d ts =>
            obtain ⟨hd, hts2⟩ := List.cons_prefix_cons.mp hpre2
            have hts' : ts <:+ projectPathToken := (List.suffix_cons d ts).trans hts
            have htl' : ts.length < projectPathToken.length := by
              rw [List.length_cons] at htl
              omega
            exact List.cons_prefix_cons.mpr ⟨hd, ihQ ts hts' htl' hts2⟩

theorem replaceToken_of_no_occurrence (repl : Chars) :
    ∀ s : Chars, ¬ projectPathToken <:+: s → replaceToken repl s = s := by
  intro s
  induction s with
  | nil => intro _; rfl
  | cons c rest ih =>
    intro h
    rw [replaceToken_cons]
    rw [if_neg fun hh => h (fromPre (isPreOfIff.mp hh))]
    rw [ih fun hh => h (infixConsOf c hh)]

/-- C7.  When `write_mcp_json` serializes the server registry, every
argument has each occurrence of the literal `{project_path}` token
replaced by the project's absolute path string, arguments without the
token are written unchanged, and no written argument still contains the
token.  The hypotheses say that the replacement string is a plausible
absolute path: it contains no brace and is not a substring of the token
itself (any string containing `/` satisfies the latter). -/
theorem write_mcp_json_replaces_placeholder (project_path_abs : Chars)
    (hop : '{' ∉ project_path_abs) (hcl : '}' ∉ project_path_abs)
    (hni : ¬ project_path_abs <:+: projectPathToken) (args : List Chars) :
    write_mcp_json_args project_path_abs args =
      args.map (replaceToken project_path_abs) ∧
    (∀ arg ∈ args, ¬ projectPathToken <:+: arg →
      replaceToken project_path_abs arg = arg) ∧
    (∀ out ∈ write_mcp_json_args project_path_abs args,
      ¬ projectPathToken <:+: out) := by
  refine ⟨?_, fun arg _ h => replaceToken_of_no_occurrence _ arg h, ?_⟩
  · rw [write_mcp_json_args]
    apply List.map_congr_left
    intro arg _
    by_cases h : projectPathToken <:+: arg
    · rw [if_pos h]
    · rw [if_neg h, replaceToken_of_no_occurrence _ arg h]
  · intro out hout
    rw [write_mcp_json_args] at hout
    obtain ⟨arg, _, rfl⟩ := List.mem_map.mp hout
    by_cases h : projectPathToken <:+: arg
    · rw [if_pos h]
      exact (replaceToken_clean project_path_abs hop hcl hni arg.length arg
        (Nat.le_refl _)).1
    · rw [if_neg h]
      exact h

/-- Witness for C7 at a concrete path and argument list: the placeholder
is substituted, the other argument is untouched, and no output argument
contains the token. -/
theorem write_mcp_json_replaces_placeholder_witness :
    write_mcp_json_args ("/home/user/demo".toList)
        ["--dir".toList, "{project_path}/src".toList] =
      ["--dir".toList, "{project_path}/src".toList].map
        (replaceToken ("/home/user/demo".toList)) ∧
    replaceToken ("/home/user/demo".toList) ("{project_path}/src".toList) =
      "/home/user/demo/src".toList ∧
    (∀ out ∈ write_mcp_json_args ("/home/user/demo".toList)
        ["--dir".toList, "{project_path}/src".toList],
      ¬ projectPathToken <:+: out) :=
  ⟨(write_mcp_json_replaces_placeholder ("/home/user/demo".toList)
      (by decide) (by decide) (by decide) _).1,
   by decide,
   (write_mcp_json_replaces_placeholder ("/home/user/demo".toList)
      (by decide) (by decide) (by decide) _).2.2⟩

/-! ## C6: `update_gitignore` -/

theorem mem_sortedDedup {a : Chars} {X : List Chars} :
    a ∈ sortedDedup X ↔ a ∈ X := by
  rw [sortedDedup, (List.perm_insertionSort _ _).mem_iff]
  exact List.mem_dedup

theorem nodup_sortedDedup (X : List Chars) : (sortedDedup X).Nodup := by
  rw [sortedDedup]
  exact (List.perm_insertionSort _ _).symm.nodup (List.nodup_dedup X)

theorem sorted_sortedDedup (X : List Chars) :
    List.Sorted (· ≤ ·) (sortedDedup X) :=
  List.sorted_insertionSort _ _

/-- `sorted(<set>)` is determined by membership alone. -/
theorem sortedDedup_ext {X Y : List Chars} (h : ∀ a, a ∈ X ↔ a ∈ Y) :
    sortedDedup X = sortedDedup Y :=
  List.eq_of_perm_of_sorted
    ((List.perm_ext_iff_of_nodup (nodup_sortedDedup X) (nodup_sortedDedup Y)).mpr
      fun a => mem_sortedDedup.trans ((h a).trans mem_sortedDedup.symm))
    (sorted_sortedDedup X) (sorted_sortedDedup Y)

theorem intercalate_one (s : Chars) : List.intercalate ['\n'] [s] = s := by
  simp [List.intercalate]

theorem intercalate_two (s t : Chars) (rest : List Chars) :
    List.intercalate ['\n'] (s :: t :: rest) =
      s ++ '\n' :: List.intercalate ['\n'] (t :: rest) := by
  simp [List.intercalate, List.intersperse_cons_cons]

theorem dropWhile_length_le (p : Char → Bool) :
    ∀ l : Chars, (List.dropWhile p l).length ≤ l.length := by
  intro l
  induction l with
  | nil => simp
  | cons c l ih =>
    rw [List.dropWhile_cons]
    by_cases h : p c = true
    · rw [if_pos h, List.length_cons]
      omega
    · rw [if_neg h]

theorem head_not_sat {p : Char → Bool} {c : Char} {l : Chars}
    (h : List.dropWhile p (c :: l) = c :: l) : p c = false := by
  cases hpc : p c
  · rfl
  · rw [List.dropWhile_cons, if_pos hpc] at h
    have hlen := congrArg List.length h
    have hle := dropWhile_length_le p l
    rw [List.length_cons] at hlen
    omega

theorem dropWhile_append_of_head {p : Char → Bool} {X Y : Chars}
    (hX : List.dropWhile p X = X) (hne : X ≠ []) :
    List.dropWhile p (X ++ Y) = X ++ Y := by
  cases X with
  | nil => exact absurd rfl hne
  | cons c xr =>
    have hc := head_not_sat hX
    rw [List.cons_append, List.dropWhile_cons, hc]
    simp

theorem intercalate_head (S' : List Chars) (s0 : Chars) :
    ∃ z, List.intercalate ['\n'] (s0 :: S') = s0 ++ z := by
  cases S' with
  | nil =>
    refine ⟨[], ?_⟩
    rw [intercalate_one, List.append_nil]
  | cons t rest =>
    exact ⟨'\n' :: List.intercalate ['\n'] (t :: rest), intercalate_two s0 t rest⟩

theorem dropWhile_write (S : List Chars) (hne : S ≠ [])
    (hgood : ∀ l ∈ S, goodLine l) :
    List.dropWhile isPySpace (List.intercalate ['\n'] S ++ ['\n']) =
      List.intercalate ['\n'] S ++ ['\n'] := by
  cases S with
  | nil => exact absurd rfl hne
  | cons s0 S' =>
    obtain ⟨z, hz⟩ := intercalate_head S' s0
    have hg := hgood s0 (List.mem_cons_self _ _)
    rw [hz]
    simp only [List.append_assoc]
    exact dropWhile_append_of_head hg.2.2.1 hg.1

theorem intercalate_ne_nil (t : Chars) (rest : List Chars) (ht : t ≠ []) :
    List.intercalate ['\n'] (t :: rest) ≠ [] := by
  obtain ⟨z, hz⟩ := intercalate_head rest t
  rw [hz]
  intro hcon
  exact ht (List.append_eq_nil.mp hcon).1

theorem dropWhile_reverse_write :
    ∀ S : List Chars, S ≠ [] → (∀ l ∈ S, goodLine l) →
      List.dropWhile isPySpace (List.intercalate ['\n'] S).reverse =
        (List.intercalate ['\n'] S).reverse := by
  intro S
  induction S with
  | nil =>
    intro h _
    exact absurd rfl h
  | cons s0 S' ih =>
    intro _ hgood
    cases S' with
    | nil =>
      rw [intercalate_one]
      exact (hgood s0 (List.mem_cons_self _ _)).2.2.2
    | cons t rest =>
      have hgt : goodLine t := hgood t (List.mem_cons_of_mem _ (List.mem_cons_self _ _))
      have hI : List.intercalate ['\n'] (t :: rest) ≠ [] := intercalate_ne_nil t rest hgt.1
      have hX := ih (by simp) fun l hl => hgood l (List.mem_cons_of_mem _ hl)
      rw [intercalate_two]
      rw [List.reverse_append, List.reverse_cons]
      simp only [List.append_assoc]
      refine dropWhile_append_of_head hX ?_
      intro hcon
      rw [List.reverse_eq_nil_iff] at hcon
      exact hI hcon

theorem strip_write (S : List Chars) (hne : S ≠ []) (hgood : ∀ l ∈ S, goodLine l) :
    pyStrip (List.intercalate ['\n'] S ++ ['\n']) = List.intercalate ['\n'] S := by
  rw [pyStrip, dropWhile_write S hne hgood, List.reverse_append,
    show (['\n'] : Chars).reverse = ['\n'] from rfl, List.singleton_append,
    List.dropWhile_cons, if_pos (by decide), dropWhile_reverse_write S hne hgood,
    List.reverse_reverse]

theorem split_write (S : List Chars) (hne : S ≠ []) (hgood : ∀ l ∈ S, goodLine l) :
    List.splitOn '\n' (pyStrip (List.intercalate ['\n'] S ++ ['\n'])) = S := by
  rw [strip_write S hne hgood]
  exact List.splitOn_intercalate S '\n' (fun l hl => (hgood l hl).2.1) hne

/-- C6 counterexample: against an existing *empty* `.gitignore`,
`update_gitignore` is not idempotent — Python's `"".split("\n")` is
`[""]`, so the first run writes a leading blank line that the second
run's `strip()` swallows. -/
theorem update_gitignore_not_idempotent :
    update_gitignore (some (update_gitignore (some []) [".env".toList]))
        [".env".toList] ≠
      update_gitignore (some []) [".env".toList] := by decide

/-- C6 (amended).  For prior contents and pattern lists whose lines are
all non-empty, newline-free and not whitespace-padded at either end
(true of the orchestrator's fixed pattern set and of typical
`.gitignore` files), `update_gitignore` is idempotent, and the written
content's lines are exactly the sorted duplicate-free union of the
pre-existing lines and the given patterns.  Without that restriction
idempotence fails (see the counterexample with an empty prior file). -/
theorem update_gitignore_correct (prior : Option Chars) (patterns : List Chars)
    (hgood : ∀ l ∈ priorLines prior ++ patterns, goodLine l)
    (hne : priorLines prior ++ patterns ≠ []) :
    update_gitignore (some (update_gitignore prior patterns)) patterns =
      update_gitignore prior patterns ∧
    List.splitOn '\n' (pyStrip (update_gitignore prior patterns)) =
      sortedDedup (priorLines prior ++ patterns) := by
  have hgoodS : ∀ l ∈ sortedDedup (priorLines prior ++ patterns), goodLine l :=
    fun l hl => hgood l (mem_sortedDedup.mp hl)
  have hneS : sortedDedup (priorLines prior ++ patterns) ≠ [] := by
    obtain ⟨a, ha⟩ := List.exists_mem_of_ne_nil _ hne
    intro hSnil
    have hmem : a ∈ sortedDedup (priorLines prior ++ patterns) :=
      mem_sortedDedup.mpr ha
    rw [hSnil] at hmem
    simp at hmem
  have hsplit : List.splitOn '\n' (pyStrip (update_gitignore prior patterns)) =
      sortedDedup (priorLines prior ++ patterns) := by
    rw [update_gitignore]
    exact split_write _ hneS hgoodS
  refine ⟨?_, hsplit⟩
  show List.intercalate ['\n']
      (sortedDedup (priorLines (some (update_gitignore prior patterns)) ++ patterns))
      ++ ['\n'] = _
  rw [show priorLines (some (update_gitignore prior patterns)) =
      List.splitOn '\n' (pyStrip (update_gitignore prior patterns)) from rfl]
  rw [hsplit]
  rw [show sortedDedup (sortedDedup (priorLines prior ++ patterns) ++ patterns) =
      sortedDedup (priorLines prior ++ patterns) from
    sortedDedup_ext fun a => by
      constructor
      · intro h
        rcases List.mem_append.mp h with h | h
        · exact mem_sortedDedup.mp h
        · exact List.mem_append.mpr (Or.inr h)
      · intro h
        exact List.mem_append.mpr (Or.inl (mem_sortedDedup.mpr h))]
  rfl

/-- Witness for C6's amended statement at a concrete input: prior content
`"b\na"` with pattern `.env`. -/
theorem update_gitignore_correct_witness :
    update_gitignore (some (update_gitignore (some ("b\na".toList)) [".env".toList]))
        [".env".toList] =
      update_gitignore (some ("b\na".toList)) [".env".toList] :=
  (update_gitignore_correct (some ("b\na".toList)) [".env".toList]
    (by decide) (by decide)).1

end ClaudeMcpInit
